import Mathlib

/-!
# Verification of the e-learning GraphQL backend (`server.js`)

A shallow embedding of the data model and resolvers of the Node.js/GraphQL
e-learning server.  The MongoDB document store is modelled as in-memory lists
of documents (`St`); `findById` / `findOne` become `List.find?` over those
lists, and `document.save()` becomes replace-the-document-with-the-same-id
(insert when absent), which is MongoDB's save semantics for a collection whose
`_id` field is the primary key.  Thrown JavaScript errors — both the explicit
`throw new Error(...)` calls and the `TypeError`s raised by dereferencing
`null`/`undefined` — are modelled with `Except Err`.  ObjectIds are modelled
as `String` (mongoose array `includes`, and the `toString()` comparisons in
the source, compare ids by value, which plain string equality captures).
-/

namespace ELearn

/-- A per-course progress sub-document of a user
(`progress: [{ course, completedLessons }]` in the mongoose user schema). -/
structure Progress where
  course : String
  completedLessons : List String
deriving DecidableEq, Repr

/-- A quiz sub-document of a course. -/
structure Quiz where
  question : String
  options : List String
  answer : String
deriving DecidableEq, Repr

/-- A user document (mongoose `userSchema`). -/
structure User where
  id : String
  name : String
  email : String
  password : String
  enrolledCourses : List String
  progress : List Progress
deriving DecidableEq, Repr

/-- A course document (mongoose `courseSchema`). -/
structure Course where
  id : String
  title : String
  description : String
  category : String
  lessons : List String
  quizzes : List Quiz
  enrolledStudents : List String
deriving DecidableEq, Repr

/-- The persistent database state: the two MongoDB collections. -/
structure St where
  users : List User
  courses : List Course
deriving DecidableEq, Repr

/-- The per-request context the JWT middleware attaches to `req`
(`req.isAuth`, `req.userId`).  The unset JavaScript fields of an
unauthenticated request are modelled as `false` / `""`; downstream resolvers
only ever test the truthiness of `isAuth`. -/
structure Ctx where
  isAuth : Bool
  userId : String
deriving DecidableEq, Repr

/-- The errors a resolver can raise: the three explicit `throw new Error`
sites of the source, plus `nullDeref` for a JavaScript `TypeError` caused by
dereferencing `null`/`undefined`. -/
inductive Err where
  | unauthorized
  | duplicateEmail
  | invalidCredentials
  | nullDeref
deriving DecidableEq, Repr

/-- A decoded JWT as produced by `jwt.sign({ userId }, secret,
{ expiresIn: '1d' })`: the payload (`userId`, absolute expiry in seconds) and
its signature.  The HMAC signature is modelled injectively as the signing
secret together with the signed payload, so a signature verifies exactly when
it was produced over this payload with the verifier's secret. -/
structure Token where
  userId : String
  exp : Nat
  sigSecret : String
  sigUserId : String
  sigExp : Nat
deriving DecidableEq, Repr

/-- The `AuthData` GraphQL type returned by `login`: `{ token, userId }`. -/
structure AuthData where
  token : Token
  userId : String
deriving DecidableEq, Repr

/-- `jwt.sign({ userId: user._id }, JWT_SECRET, { expiresIn: '1d' })`:
expiry is 24 h = 86400 s after issuance. -/
def jwtSign (secret userId : String) (now : Nat) : Token :=
  { userId := userId
    exp := now + 86400
    sigSecret := secret
    sigUserId := userId
    sigExp := now + 86400 }

/-- `jwt.verify(token, JWT_SECRET)`: succeeds with the embedded `userId` iff
the signature was produced with the same secret over this exact payload and
the token has not expired; otherwise it fails (`none`, for the thrown
`JsonWebTokenError`/`TokenExpiredError`). -/
def jwtVerify (secret : String) (tok : Token) (now : Nat) : Option String :=
  if tok.sigSecret = secret ∧ tok.sigUserId = tok.userId ∧ tok.sigExp = tok.exp
      ∧ now < tok.exp
  then some tok.userId else none

/-- `User.findById(uid)` : first user document whose `_id` equals `uid`. -/
def findUser (st : St) (uid : String) : Option User :=
  st.users.find? (fun u => u.id == uid)

/-- `Course.findById(cid)` : first course document whose `_id` equals `cid`. -/
def findCourse (st : St) (cid : String) : Option Course :=
  st.courses.find? (fun c => c.id == cid)

/-- Mongo `document.save()` on a collection: replace the (unique) document
with the same `_id`, or insert the document if no such `_id` is stored. -/
def saveDoc {α : Type} (idOf : α → String) : List α → α → List α
  | [], u => [u]
  | v :: vs, u => if idOf v == idOf u then u :: vs else v :: saveDoc idOf vs u

/-- `user.save()`. -/
def saveUser (st : St) (u : User) : St :=
  { st with users := saveDoc User.id st.users u }

/-- `course.save()`. -/
def saveCourse (st : St) (c : Course) : St :=
  { st with courses := saveDoc Course.id st.courses c }

/-- JavaScript `authHeader.split(' ')` on the character list of the header:
splits at every single space, keeping empty fragments. -/
def splitSp : List Char → List Char → List (List Char)
  | [], acc => [acc.reverse]
  | ch :: cs, acc =>
    if ch = ' ' then acc.reverse :: splitSp cs [] else splitSp cs (ch :: acc)

/-- `const token = authHeader.split(' ')[1]; if (!token) ...`: the bearer
token string, if the header has a second space-separated word and that word
is non-empty (both `undefined` and `''` are falsy in JavaScript). -/
def extractBearer (authHeader : String) : Option String :=
  match (splitSp authHeader.data []).get? 1 with
  | none => none
  | some t => if t = [] then none else some (String.mk t)

/-- The `isAuth` JWT middleware (the Request Gate).  `dec` is the wire
decoder of the `jsonwebtoken` library, mapping a token string to its decoded
`Token` when the string is well-formed (`none` models the
`JsonWebTokenError` thrown on a malformed string, which the `catch` turns
into `isAuth = false`).  The middleware is a total function into `Ctx`:
every request continues to `next()`, no error escapes to later handlers. -/
def isAuth (secret : String) (now : Nat) (dec : String → Option Token)
    (authHeader : String) : Ctx :=
  match extractBearer authHeader with
  | none => { isAuth := false, userId := "" }
  | some s =>
    match (dec s).bind (fun tok => jwtVerify secret tok now) with
    | some uid => { isAuth := true, userId := uid }
    | none => { isAuth := false, userId := "" }

/-- Resolver `courses`: `category ? Course.find({ category }) : Course.find()`.
Takes no request context (unauthenticated-accessible).  Note the JavaScript
truthiness test: an absent/null category *and* the empty string both take the
unfiltered branch. -/
def courses (st : St) (category : Option String) : List Course :=
  match category with
  | none => st.courses
  | some c => if c = "" then st.courses else st.courses.filter (fun x => x.category == c)

/-- Resolver `myCourses`: requires auth, loads the user and returns its
`enrolledCourses` populated to course documents (a dangling reference
populates to `null`, modelled `none`). -/
def myCourses (st : St) (req : Ctx) : Except Err (List (Option Course)) :=
  if !req.isAuth then .error .unauthorized else
  match findUser st req.userId with
  | none => .error .nullDeref
  | some user => .ok (user.enrolledCourses.map (findCourse st))

/-- The scan `user.progress.find(p => p.course._id.toString() === courseId)`
over the populated progress list: each scanned entry dereferences its
populated course, so an entry whose course id is not in the catalog raises a
`TypeError` when reached; an exhausted scan returns `undefined` (`none`). -/
def findProgressPopulated (st : St) (cid : String) :
    List Progress → Except Err (Option Progress)
  | [] => .ok none
  | p :: ps =>
    match findCourse st p.course with
    | none => .error .nullDeref
    | some c => if c.id == cid then .ok (some p) else findProgressPopulated st cid ps

/-- Resolver `myProgress`. -/
def myProgress (st : St) (req : Ctx) (courseId : String) :
    Except Err (Option Progress) :=
  if !req.isAuth then .error .unauthorized else
  match findUser st req.userId with
  | none => .error .nullDeref
  | some user => findProgressPopulated st courseId user.progress

/-- Resolver `register`: fails when a user with the email already exists,
otherwise inserts a new user document (with a fresh mongoose-generated id,
passed here as `freshId`) holding empty enrollment and progress lists. -/
def register (st : St) (freshId name email password : String) :
    Except Err (User × St) :=
  match st.users.find? (fun u => u.email == email) with
  | some _ => .error .duplicateEmail
  | none =>
    let u : User :=
      { id := freshId, name := name, email := email, password := password
        enrolledCourses := [], progress := [] }
    .ok (u, { st with users := st.users ++ [u] })

/-- Resolver `login`: `if (!user || user.password !== password) throw`;
otherwise signs a 24-hour token over the user's id. -/
def login (st : St) (secret : String) (now : Nat) (email password : String) :
    Except Err AuthData :=
  match st.users.find? (fun u => u.email == email) with
  | none => .error .invalidCredentials
  | some user =>
    if user.password == password then .ok ⟨jwtSign secret user.id now, user.id⟩
    else .error .invalidCredentials

/-- Resolver `enroll`.  Dereference order follows the source: the user is
dereferenced by the `includes` test before the course is touched, and in the
already-enrolled case the course document is returned without being
dereferenced (so a missing course yields `.ok (none, st)` there, i.e. JS
returns `null`).  In the enrolling branch the three pushes and the two saves
of the source are performed; a missing course raises the `TypeError` of
`course.enrolledStudents.push` before any `save`, so the store is unchanged. -/
def enroll (st : St) (req : Ctx) (courseId : String) :
    Except Err (Option Course × St) :=
  if !req.isAuth then .error .unauthorized else
  match findUser st req.userId with
  | none => .error .nullDeref
  | some user =>
    let course? := findCourse st courseId
    if courseId ∈ user.enrolledCourses then .ok (course?, st)
    else
      match course? with
      | none => .error .nullDeref
      | some course =>
        let user' := { user with
          enrolledCourses := user.enrolledCourses ++ [courseId]
          progress := user.progress ++ [⟨courseId, []⟩] }
        let course' := { course with
          enrolledStudents := course.enrolledStudents ++ [user.id] }
        .ok (some course', saveCourse (saveUser st user') course')

/-- `completeLesson`'s guarded push on one progress record:
`if (!progress.completedLessons.includes(lesson)) push(lesson)`. -/
def addLesson (lesson : String) (p : Progress) : Progress :=
  if lesson ∈ p.completedLessons then p
  else { p with completedLessons := p.completedLessons ++ [lesson] }

/-- The in-place mutation of the record found by
`user.progress.find(p => p.course.toString() === courseId)` as it is
persisted by `user.save()`: the first matching record gets the lesson added,
everything else is unchanged. -/
def updateProgress : List Progress → String → String → List Progress
  | [], _, _ => []
  | p :: ps, cid, lesson =>
    if p.course == cid then addLesson lesson p :: ps
    else p :: updateProgress ps cid lesson

/-- Resolver `completeLesson`.  When the user has no progress record for the
course, `user.progress.find` returns `undefined` and
`progress.completedLessons` raises a `TypeError` (`nullDeref`); no named
`NoSuchProgress` error exists in the source. -/
def completeLesson (st : St) (req : Ctx) (courseId lesson : String) :
    Except Err (Progress × St) :=
  if !req.isAuth then .error .unauthorized else
  match findUser st req.userId with
  | none => .error .nullDeref
  | some user =>
    match user.progress.find? (fun p => p.course == courseId) with
    | none => .error .nullDeref
    | some p =>
      let user' := { user with progress := updateProgress user.progress courseId lesson }
      .ok (addLesson lesson p, saveUser st user')

/-- Persistent-state projection of `register` (a thrown error leaves the
store unchanged). -/
def registerS (st : St) (freshId name email password : String) : St :=
  match register st freshId name email password with
  | .ok (_, st') => st'
  | .error _ => st

/-- Persistent-state projection of `enroll`. -/
def enrollS (st : St) (req : Ctx) (courseId : String) : St :=
  match enroll st req courseId with
  | .ok (_, st') => st'
  | .error _ => st

/-- Persistent-state projection of `completeLesson`. -/
def completeLessonS (st : St) (req : Ctx) (courseId lesson : String) : St :=
  match completeLesson st req courseId lesson with
  | .ok (_, st') => st'
  | .error _ => st

end ELearn

namespace ELearn

/-- `Grows xs ys`: the new lesson list `ys` extends the old one `xs` at the
end, so the order of first insertion of the old elements is preserved. -/
def Grows (xs ys : List String) : Prop := ∃ t, ys = xs ++ t

theorem grows_refl (xs : List String) : Grows xs xs :=
  ⟨[], (List.append_nil xs).symm⟩

theorem grows_trans {xs ys zs : List String} (h1 : Grows xs ys)
    (h2 : Grows ys zs) : Grows xs zs := by
  obtain ⟨t1, rfl⟩ := h1
  obtain ⟨t2, rfl⟩ := h2
  exact ⟨t1 ++ t2, List.append_assoc xs t1 t2⟩

/-- `Grows` lifted to the optional result of a progress lookup. -/
def GrowsTo (a b : Option (List String)) : Prop :=
  ∀ xs, a = some xs → ∃ ys, b = some ys ∧ Grows xs ys

theorem growsTo_refl (a : Option (List String)) : GrowsTo a a :=
  fun xs h => ⟨xs, h, grows_refl xs⟩

theorem growsTo_trans {a b c : Option (List String)} (h1 : GrowsTo a b)
    (h2 : GrowsTo b c) : GrowsTo a c := by
  intro xs hxs
  obtain ⟨ys, hb, g1⟩ := h1 xs hxs
  obtain ⟨zs, hc, g2⟩ := h2 ys hb
  exact ⟨zs, hc, grows_trans g1 g2⟩

/-- Progress growth between two versions of a user document: every progress
record survives (same course) and its completed-lessons list only grows. -/
def PGrows (u u' : User) : Prop :=
  ∀ p ∈ u.progress, ∃ p' ∈ u'.progress,
    p'.course = p.course ∧ Grows p.completedLessons p'.completedLessons

theorem pGrows_refl (u : User) : PGrows u u :=
  fun p hp => ⟨p, hp, rfl, grows_refl _⟩

/-- The completed-lessons list of the progress record that `completeLesson`
addresses: the first record for `cid` of the first user with id `uid`. -/
def lessonsOf (st : St) (uid cid : String) : Option (List String) :=
  (findUser st uid).bind fun u =>
    (u.progress.find? (fun p => p.course == cid)).map (·.completedLessons)

/-- Every progress record of every stored user has duplicate-free
completed lessons. -/
def LessonsNodup (st : St) : Prop :=
  ∀ u ∈ st.users, ∀ p ∈ u.progress, p.completedLessons.Nodup

/-- Monotonicity between two states: no user or course document disappears,
and every progress record survives with its completed-lessons list only
growing. -/
def Mono (st st' : St) : Prop :=
  (∀ u ∈ st.users, ∃ u' ∈ st'.users, u'.id = u.id ∧ PGrows u u') ∧
  (∀ c ∈ st.courses, ∃ c' ∈ st'.courses, c'.id = c.id)

theorem mono_refl (st : St) : Mono st st :=
  ⟨fun u hu => ⟨u, hu, rfl, pGrows_refl u⟩, fun c hc => ⟨c, hc, rfl⟩⟩

/-- One API operation of the server, with its arguments. -/
inductive Op where
  | coursesQ (category : Option String)
  | myCoursesQ (req : Ctx)
  | myProgressQ (req : Ctx) (courseId : String)
  | registerM (freshId name email password : String)
  | loginM (secret : String) (now : Nat) (email password : String)
  | enrollM (req : Ctx) (courseId : String)
  | completeLessonM (req : Ctx) (courseId lesson : String)

/-- The store state after one operation.  The three queries and `login`
contain no `save()` call, so they never write; the three mutations' effects
are the state projections of their resolvers (`register` inserts a user,
`enroll` and `completeLesson` save the documents they modified, and a thrown
error leaves the store untouched). -/
def stepState (st : St) : Op → St
  | .coursesQ _ => st
  | .myCoursesQ _ => st
  | .myProgressQ _ _ => st
  | .registerM fid n e p => registerS st fid n e p
  | .loginM _ _ _ _ => st
  | .enrollM r cid => enrollS st r cid
  | .completeLessonM r cid lesson => completeLessonS st r cid lesson

/-- The store state after a sequence of `completeLesson` calls. -/
def applyCalls (st : St) : List (Ctx × String × String) → St
  | [] => st
  | (r, cid, lesson) :: rest => applyCalls (completeLessonS st r cid lesson) rest

theorem addLesson_course (lesson : String) (p : Progress) :
    (addLesson lesson p).course = p.course := by
  unfold addLesson
  split <;> rfl

theorem addLesson_grows (lesson : String) (p : Progress) :
    Grows p.completedLessons (addLesson lesson p).completedLessons := by
  unfold addLesson
  split
  · exact grows_refl _
  · exact ⟨[lesson], rfl⟩

theorem mem_addLesson (lesson : String) (p : Progress) :
    lesson ∈ (addLesson lesson p).completedLessons := by
  unfold addLesson
  split
  · assumption
  · exact List.mem_append_right _ (List.mem_singleton.mpr rfl)

theorem addLesson_nodup {lesson : String} {p : Progress}
    (h : p.completedLessons.Nodup) : (addLesson lesson p).completedLessons.Nodup := by
  unfold addLesson
  split
  · exact h
  · rename_i hmem
    simp only [List.nodup_append, List.nodup_singleton, true_and]
    exact ⟨h, fun a ha hb => hmem ((List.mem_singleton.mp hb) ▸ ha)⟩

end ELearn

namespace ELearn

theorem find?_saveDoc {α : Type} (idOf : α → String) {l : List α} {u' u : α}
    (hfind : l.find? (fun v => idOf v == idOf u') = some u) (i : String) :
    (saveDoc idOf l u').find? (fun v => idOf v == i) =
      if i = idOf u' then some u' else l.find? (fun v => idOf v == i) := by
  induction l with
  | nil => simp [List.find?] at hfind
  | cons w ws ih =>
    rw [saveDoc]
    by_cases hw : idOf w = idOf u'
    · rw [if_pos (beq_iff_eq.mpr hw)]
      by_cases hi : i = idOf u'
      · rw [if_pos hi]
        exact List.find?_cons_of_pos ws (by simp [hi])
      · rw [if_neg hi]
        rw [List.find?_cons_of_neg ws (by simp; exact fun h => hi h.symm),
          List.find?_cons_of_neg ws (by simp [hw]; exact fun h => hi h.symm)]
    · rw [if_neg (by simpa [beq_iff_eq] using hw)]
      have hfind' : ws.find? (fun v => idOf v == idOf u') = some u := by
        rwa [List.find?_cons_of_neg ws (by simpa [beq_iff_eq] using hw)] at hfind
      by_cases hpw : idOf w = i
      · have hne : ¬ i = idOf u' := fun h => hw (hpw.trans h)
        rw [if_neg hne, List.find?_cons_of_pos _ (by simp [hpw]),
          List.find?_cons_of_pos _ (by simp [hpw])]
      · rw [List.find?_cons_of_neg _ (by simpa [beq_iff_eq] using hpw),
          List.find?_cons_of_neg _ (by simpa [beq_iff_eq] using hpw)]
        exact ih hfind'

theorem mem_saveDoc {α : Type} (idOf : α → String) {l : List α} {u : α} :
    ∀ v ∈ saveDoc idOf l u, v ∈ l ∨ v = u := by
  induction l with
  | nil =>
    intro v hv
    rw [saveDoc] at hv
    exact Or.inr (List.mem_singleton.mp hv)
  | cons w ws ih =>
    intro v hv
    rw [saveDoc] at hv
    split at hv
    · rcases List.mem_cons.mp hv with h | h
      · exact Or.inr h
      · exact Or.inl (List.mem_cons_of_mem w h)
    · rcases List.mem_cons.mp hv with h | h
      · exact Or.inl (h ▸ List.mem_cons_self w ws)
      · rcases ih v h with h' | h'
        · exact Or.inl (List.mem_cons_of_mem w h')
        · exact Or.inr h'

theorem saveDoc_ids {α : Type} (idOf : α → String) (l : List α) (u : α) :
    ∀ v ∈ l, ∃ v' ∈ saveDoc idOf l u, idOf v' = idOf v := by
  induction l with
  | nil => intro v hv; cases hv
  | cons w ws ih =>
    intro v hv
    rw [saveDoc]
    by_cases hw : idOf w = idOf u
    · rw [if_pos (beq_iff_eq.mpr hw)]
      rcases List.mem_cons.mp hv with h | h
      · exact ⟨u, List.mem_cons_self u ws, by rw [← hw, h]⟩
      · exact ⟨v, List.mem_cons_of_mem u h, rfl⟩
    · rw [if_neg (by simpa [beq_iff_eq] using hw)]
      rcases List.mem_cons.mp hv with h | h
      · exact ⟨w, List.mem_cons_self _ _, by rw [h]⟩
      · obtain ⟨v', hv', hid⟩ := ih v h
        exact ⟨v', List.mem_cons_of_mem w hv', hid⟩

theorem saveDoc_user_mono {l : List User} {u u' : User}
    (hfind : l.find? (fun v => v.id == u'.id) = some u) (hR : PGrows u u') :
    ∀ v ∈ l, ∃ v' ∈ saveDoc User.id l u', v'.id = v.id ∧ PGrows v v' := by
  induction l with
  | nil => intro v hv; cases hv
  | cons w ws ih =>
    intro v hv
    rw [saveDoc]
    by_cases hw : w.id = u'.id
    · rw [if_pos (beq_iff_eq.mpr hw)]
      have hwu : w = u := by
        have := List.find?_cons_of_pos (p := fun v => v.id == u'.id) (a := w) ws
          (by simp [hw])
        rw [this] at hfind
        exact (Option.some.injEq _ _ ▸ hfind)
      rcases List.mem_cons.mp hv with h | h
      · exact ⟨u', List.mem_cons_self u' ws, by rw [h, ← hw], by rw [h, hwu]; exact hR⟩
      · exact ⟨v, List.mem_cons_of_mem u' h, rfl, pGrows_refl v⟩
    · rw [if_neg (by simpa [beq_iff_eq] using hw)]
      have hfind' : ws.find? (fun v => v.id == u'.id) = some u := by
        rwa [List.find?_cons_of_neg ws (by simpa [beq_iff_eq] using hw)] at hfind
      rcases List.mem_cons.mp hv with h | h
      · exact ⟨w, List.mem_cons_self w _, by rw [h], h ▸ pGrows_refl w⟩
      · obtain ⟨v', hv', hid, hg⟩ := ih hfind' v h
        exact ⟨v', List.mem_cons_of_mem w hv', hid, hg⟩

theorem updateProgress_grows (ps : List Progress) (cid lesson : String) :
    ∀ p ∈ ps, ∃ p' ∈ updateProgress ps cid lesson,
      p'.course = p.course ∧ Grows p.completedLessons p'.completedLessons := by
  induction ps with
  | nil => intro p hp; cases hp
  | cons q qs ih =>
    intro p hp
    rw [updateProgress]
    split
    · rcases List.mem_cons.mp hp with h | h
      · exact ⟨addLesson lesson q, List.mem_cons_self _ _,
          by rw [h, addLesson_course], h ▸ addLesson_grows lesson q⟩
      · exact ⟨p, List.mem_cons_of_mem _ h, rfl, grows_refl _⟩
    · rcases List.mem_cons.mp hp with h | h
      · exact ⟨q, List.mem_cons_self _ _, by rw [h], h ▸ grows_refl _⟩
      · obtain ⟨p', hp', hc, hg⟩ := ih p h
        exact ⟨p', List.mem_cons_of_mem _ hp', hc, hg⟩

theorem mem_updateProgress {ps : List Progress} {cid lesson : String} :
    ∀ q ∈ updateProgress ps cid lesson,
      q ∈ ps ∨ ∃ p ∈ ps, q = addLesson lesson p := by
  induction ps with
  | nil => intro q hq; rw [updateProgress] at hq; cases hq
  | cons w ws ih =>
    intro q hq
    rw [updateProgress] at hq
    split at hq
    · rcases List.mem_cons.mp hq with h | h
      · exact Or.inr ⟨w, List.mem_cons_self w ws, h⟩
      · exact Or.inl (List.mem_cons_of_mem w h)
    · rcases List.mem_cons.mp hq with h | h
      · exact Or.inl (h ▸ List.mem_cons_self w ws)
      · rcases ih q h with h' | ⟨p, hp, hq'⟩
        · exact Or.inl (List.mem_cons_of_mem w h')
        · exact Or.inr ⟨p, List.mem_cons_of_mem w hp, hq'⟩

theorem find?_updateProgress (ps : List Progress) (c lesson cid : String) :
    (updateProgress ps c lesson).find? (fun p => p.course == cid) =
      if cid = c then (ps.find? (fun p => p.course == c)).map (addLesson lesson)
      else ps.find? (fun p => p.course == cid) := by
  induction ps with
  | nil =>
    rw [updateProgress]
    split <;> simp [List.find?]
  | cons w ws ih =>
    rw [updateProgress]
    by_cases hw : w.course = c
    · rw [if_pos (beq_iff_eq.mpr hw)]
      by_cases hc : cid = c
      · rw [if_pos hc,
          List.find?_cons_of_pos _ (by simp [addLesson_course, hw, hc]),
          List.find?_cons_of_pos _ (by simp [hw])]
        rfl
      · rw [if_neg hc,
          List.find?_cons_of_neg _ (by simp [addLesson_course, hw]; exact fun h => hc h.symm),
          List.find?_cons_of_neg _ (by simp [hw]; exact fun h => hc h.symm)]
    · rw [if_neg (by simpa [beq_iff_eq] using hw)]
      by_cases hc : cid = c
      · rw [if_pos hc,
          List.find?_cons_of_neg _ (by simpa [beq_iff_eq, hc] using hw),
          List.find?_cons_of_neg _ (by simpa [beq_iff_eq, hc] using hw)]
        rw [ih, if_pos hc]
      · by_cases hwc : w.course = cid
        · rw [List.find?_cons_of_pos _ (by simp [hwc]),
            if_neg hc, List.find?_cons_of_pos _ (by simp [hwc])]
        · rw [List.find?_cons_of_neg _ (by simpa [beq_iff_eq] using hwc),
            if_neg hc, List.find?_cons_of_neg _ (by simpa [beq_iff_eq] using hwc)]
          rw [ih, if_neg hc]

end ELearn

namespace ELearn

theorem findUser_eq {st : St} {uid : String} {u : User}
    (h : findUser st uid = some u) :
    st.users.find? (fun v => v.id == uid) = some u := h

theorem findUser_mem {st : St} {uid : String} {u : User}
    (h : findUser st uid = some u) : u ∈ st.users :=
  List.mem_of_find?_eq_some (findUser_eq h)

theorem findUser_id {st : St} {uid : String} {u : User}
    (h : findUser st uid = some u) : u.id = uid := by
  have hb := List.find?_some (findUser_eq h)
  exact eq_of_beq hb

theorem findCourse_eq {st : St} {cid : String} {c : Course}
    (h : findCourse st cid = some c) :
    st.courses.find? (fun v => v.id == cid) = some c := h

theorem findCourse_mem {st : St} {cid : String} {c : Course}
    (h : findCourse st cid = some c) : c ∈ st.courses :=
  List.mem_of_find?_eq_some (findCourse_eq h)

theorem findCourse_id {st : St} {cid : String} {c : Course}
    (h : findCourse st cid = some c) : c.id = cid := by
  have hb := List.find?_some (findCourse_eq h)
  exact eq_of_beq hb

theorem completeLessonS_cases (st : St) (r : Ctx) (cid lesson : String) :
    completeLessonS st r cid lesson = st ∨
    ∃ u, findUser st r.userId = some u ∧
      completeLessonS st r cid lesson =
        saveUser st { u with progress := updateProgress u.progress cid lesson } := by
  unfold completeLessonS completeLesson
  cases hr : r.isAuth with
  | false => simp
  | true =>
    simp only [hr, Bool.not_true, Bool.false_eq_true, if_false]
    cases hu : findUser st r.userId with
    | none => simp
    | some u =>
      cases hp : u.progress.find? (fun p => p.course == cid) with
      | none => simp [hp]
      | some p => exact Or.inr ⟨u, rfl, by simp [hp]⟩

theorem enrollS_cases (st : St) (r : Ctx) (cid : String) :
    enrollS st r cid = st ∨
    ∃ u c, findUser st r.userId = some u ∧ findCourse st cid = some c ∧
      cid ∉ u.enrolledCourses ∧
      enrollS st r cid =
        saveCourse (saveUser st
          { u with enrolledCourses := u.enrolledCourses ++ [cid]
                   progress := u.progress ++ [⟨cid, []⟩] })
          { c with enrolledStudents := c.enrolledStudents ++ [u.id] } := by
  unfold enrollS enroll
  cases hr : r.isAuth with
  | false => simp
  | true =>
    simp only [hr, Bool.not_true, Bool.false_eq_true, if_false]
    cases hu : findUser st r.userId with
    | none => simp
    | some u =>
      by_cases hmem : cid ∈ u.enrolledCourses
      · simp [hmem]
      · cases hc : findCourse st cid with
        | none => simp [hmem, hc]
        | some c => exact Or.inr ⟨u, c, rfl, rfl, hmem, by simp [hmem, hc]⟩

theorem growsTo_map_addLesson (o : Option Progress) (lesson : String) :
    GrowsTo (o.map (·.completedLessons))
      ((o.map (addLesson lesson)).map (·.completedLessons)) := by
  cases o with
  | none => intro xs h; cases h
  | some p =>
    intro xs h
    simp only [Option.map_some'] at h ⊢
    refine ⟨(addLesson lesson p).completedLessons, rfl, ?_⟩
    injection h with h
    exact h ▸ addLesson_grows lesson p

theorem completeLessonS_growsTo (st : St) (r : Ctx) (cid lesson uid cid' : String) :
    GrowsTo (lessonsOf st uid cid')
      (lessonsOf (completeLessonS st r cid lesson) uid cid') := by
  rcases completeLessonS_cases st r cid lesson with heq | ⟨u, hu, heq⟩
  · rw [heq]; exact growsTo_refl _
  · rw [heq]
    have hid : u.id = r.userId := findUser_id hu
    have hfind : st.users.find?
        (fun v => v.id == ({ u with progress := updateProgress u.progress cid lesson } : User).id)
        = some u := by
      show st.users.find? (fun v => v.id == u.id) = some u
      simp only [hid]
      exact hu
    have hsd := find?_saveDoc User.id hfind uid
    unfold lessonsOf findUser
    simp only [saveUser] at hsd ⊢
    rw [hsd]
    by_cases hui : uid = u.id
    · rw [if_pos hui]
      have huid : st.users.find? (fun v => v.id == uid) = some u := by
        rw [hui]
        simpa only [hid] using hu
      rw [huid]
      simp only [Option.some_bind]
      rw [find?_updateProgress]
      by_cases hcc : cid' = cid
      · rw [if_pos hcc, hcc]
        exact growsTo_map_addLesson _ lesson
      · rw [if_neg hcc]
        exact growsTo_refl _
    · rw [if_neg hui]
      exact growsTo_refl _

theorem completeLessonS_nodup (st : St) (r : Ctx) (cid lesson : String)
    (h : LessonsNodup st) : LessonsNodup (completeLessonS st r cid lesson) := by
  rcases completeLessonS_cases st r cid lesson with heq | ⟨u, hu, heq⟩
  · rw [heq]; exact h
  · rw [heq]
    intro v hv p hp
    simp only [saveUser] at hv
    rcases mem_saveDoc User.id v hv with h1 | h1
    · exact h v h1 p hp
    · subst h1
      rcases mem_updateProgress p hp with h2 | ⟨q, hq, h2⟩
      · exact h u (findUser_mem hu) p h2
      · subst h2
        exact addLesson_nodup (h u (findUser_mem hu) q hq)

theorem applyCalls_nodup (calls : List (Ctx × String × String)) :
    ∀ st, LessonsNodup st → LessonsNodup (applyCalls st calls) := by
  induction calls with
  | nil => intro st h; exact h
  | cons c rest ih =>
    intro st h
    obtain ⟨r, cid, lesson⟩ := c
    rw [applyCalls]
    exact ih _ (completeLessonS_nodup st r cid lesson h)

theorem applyCalls_growsTo (calls : List (Ctx × String × String)) :
    ∀ st uid cid,
      GrowsTo (lessonsOf st uid cid) (lessonsOf (applyCalls st calls) uid cid) := by
  induction calls with
  | nil => intro st uid cid; exact growsTo_refl _
  | cons c rest ih =>
    intro st uid cid
    obtain ⟨r, cid', lesson⟩ := c
    rw [applyCalls]
    exact growsTo_trans (completeLessonS_growsTo st r cid' lesson uid cid) (ih _ uid cid)

theorem lessonsOf_mem {st : St} {uid cid : String} {ls : List String}
    (h : lessonsOf st uid cid = some ls) :
    ∃ u ∈ st.users, ∃ p ∈ u.progress, p.completedLessons = ls := by
  unfold lessonsOf at h
  cases hu : findUser st uid with
  | none => rw [hu] at h; cases h
  | some u =>
    rw [hu] at h
    simp only [Option.some_bind] at h
    cases hp : u.progress.find? (fun p => p.course == cid) with
    | none => rw [hp] at h; cases h
    | some p =>
      rw [hp] at h
      simp only [Option.map_some'] at h
      exact ⟨u, List.mem_of_find?_eq_some hu, p, List.mem_of_find?_eq_some hp,
        by injection h⟩

end ELearn

namespace ELearn

/-- Concrete registered user for instantiating the theorems. -/
def annU : User :=
  { id := "u1", name := "Ann", email := "ann@x.com", password := "pw1"
    enrolledCourses := [], progress := [] }

/-- Concrete catalog course. -/
def mathC : Course :=
  { id := "c1", title := "Intro", description := "d", category := "math"
    lessons := ["lesson1"], quizzes := [], enrolledStudents := [] }

/-- State with Ann registered but not enrolled. -/
def stReg : St := { users := [annU], courses := [mathC] }

/-- Ann after enrolling in `c1` (fresh empty progress record). -/
def annE : User :=
  { annU with enrolledCourses := ["c1"], progress := [⟨"c1", []⟩] }

/-- The course after Ann enrolled. -/
def mathCE : Course := { mathC with enrolledStudents := ["u1"] }

/-- State with Ann enrolled in `c1`. -/
def stEnr : St := { users := [annE], courses := [mathCE] }

/-- Ann's authenticated request context. -/
def reqA : Ctx := { isAuth := true, userId := "u1" }

/-- C8 (counterexample): `courses` given the explicit category filter `""`
does not return the courses whose category string-equals `""` — JavaScript
truthiness makes it return the whole catalog instead. -/
theorem courses_empty_filter_cex :
    ¬ courses stReg (some "") = stReg.courses.filter (fun x => x.category == "") := by
  decide

/-- C8 (amended): `courses` needs no request context (unauthenticated-
accessible; the resolver takes none).  With no filter it returns all stored
courses; with a *non-empty* filter it returns exactly the courses whose
category string-equals the filter; the empty-string filter is falsy in
JavaScript and is treated like an absent filter, returning all courses. -/
theorem courses_filter_spec (st : St) :
    courses st none = st.courses ∧
    courses st (some "") = st.courses ∧
    ∀ c, c ≠ "" → courses st (some c) = st.courses.filter (fun x => x.category == c) := by
  refine ⟨rfl, rfl, ?_⟩
  intro c hc
  simp [courses, hc]

theorem courses_filter_spec_witness :
    courses stReg (some "math") = stReg.courses.filter (fun x => x.category == "math") :=
  (courses_filter_spec stReg).2.2 "math" (by decide)

/-- C4: for the registered user found by email, `login` with the matching
password returns `AuthData` carrying a token signed over that user's id,
and `jwt.verify` accepts that token (before expiry) and recovers the same
user id; an unknown email or a mismatched password yields
`InvalidCredentials` and no token. -/
theorem login_token_roundtrip (st : St) (secret : String) (now : Nat)
    (email pw : String) :
    (∀ u, st.users.find? (fun v => v.email == email) = some u → u.password = pw →
      login st secret now email pw = .ok ⟨jwtSign secret u.id now, u.id⟩ ∧
      ∀ t, t < now + 86400 → jwtVerify secret (jwtSign secret u.id now) t = some u.id) ∧
    (st.users.find? (fun v => v.email == email) = none →
      login st secret now email pw = .error .invalidCredentials) ∧
    (∀ u, st.users.find? (fun v => v.email == email) = some u → u.password ≠ pw →
      login st secret now email pw = .error .invalidCredentials) := by
  refine ⟨?_, ?_, ?_⟩
  · intro u hu hpw
    constructor
    · unfold login
      simp only [hu, if_pos (beq_iff_eq.mpr hpw)]
    · intro t ht
      unfold jwtVerify jwtSign
      simp [ht]
  · intro hn
    unfold login
    simp only [hn]
  · intro u hu hpw
    unfold login
    simp only [hu]
    rw [if_neg (fun h => hpw (eq_of_beq h))]

theorem login_token_roundtrip_witness :
    login stReg "sec" 0 "ann@x.com" "pw1" = .ok ⟨jwtSign "sec" "u1" 0, "u1"⟩ ∧
    jwtVerify "sec" (jwtSign "sec" "u1" 0) 100 = some "u1" ∧
    login stReg "sec" 0 "bob@x.com" "pw1" = .error .invalidCredentials ∧
    login stReg "sec" 0 "ann@x.com" "bad" = .error .invalidCredentials := by
  refine ⟨((login_token_roundtrip stReg "sec" 0 "ann@x.com" "pw1").1 annU (by decide) rfl).1,
    ((login_token_roundtrip stReg "sec" 0 "ann@x.com" "pw1").1 annU (by decide) rfl).2
      100 (by decide),
    (login_token_roundtrip stReg "sec" 0 "bob@x.com" "pw1").2.1 (by decide),
    (login_token_roundtrip stReg "sec" 0 "ann@x.com" "bad").2.2 annU (by decide) (by decide)⟩

/-- C6: the Request Gate is a total function into `Ctx` (it never blocks a
request and never lets an error escape): an absent bearer token yields the
unauthenticated context; any verification failure — undecodable (malformed)
string or failed signature/expiry check — yields the same unauthenticated
context, exposing no failure reason; successful verification yields the
authenticated context carrying the recovered user id. -/
theorem isAuth_gate_spec (secret : String) (now : Nat)
    (dec : String → Option Token) (hdr : String) :
    (extractBearer hdr = none →
      isAuth secret now dec hdr = { isAuth := false, userId := "" }) ∧
    (∀ s, extractBearer hdr = some s →
      (dec s).bind (fun tok => jwtVerify secret tok now) = none →
      isAuth secret now dec hdr = { isAuth := false, userId := "" }) ∧
    (∀ s uid, extractBearer hdr = some s →
      (dec s).bind (fun tok => jwtVerify secret tok now) = some uid →
      isAuth secret now dec hdr = { isAuth := true, userId := uid }) := by
  refine ⟨?_, ?_, ?_⟩
  · intro he
    unfold isAuth
    simp only [he]
  · intro s he hv
    unfold isAuth
    simp only [he, hv]
  · intro s uid he hv
    unfold isAuth
    simp only [he, hv]

/-- Wire decoder for the witness: only the string `tkn` is a well-formed
token. -/
def decW : String → Option Token :=
  fun s => if s = "tkn" then some (jwtSign "sec" "u1" 0) else none

theorem isAuth_gate_spec_witness :
    isAuth "sec" 5 decW "" = { isAuth := false, userId := "" } ∧
    isAuth "sec" 5 decW "Bearer bad" = { isAuth := false, userId := "" } ∧
    isAuth "sec" 5 decW "Bearer tkn" = { isAuth := true, userId := "u1" } :=
  ⟨(isAuth_gate_spec "sec" 5 decW "").1 (by decide),
    (isAuth_gate_spec "sec" 5 decW "Bearer bad").2.1 "bad" (by decide) (by decide),
    (isAuth_gate_spec "sec" 5 decW "Bearer tkn").2.2 "tkn" "u1" (by decide) (by decide)⟩

/-- C5: `register` with an email some stored user already has fails with the
duplicate-email error and leaves the store exactly as it was — the stored
user record is unmodified and no user is created. -/
theorem register_duplicate_email (st : St) (fid nm email pw : String)
    (hdup : ∃ u ∈ st.users, u.email = email) :
    register st fid nm email pw = .error .duplicateEmail ∧
    registerS st fid nm email pw = st := by
  have hs : (st.users.find? (fun u => u.email == email)).isSome := by
    rw [List.find?_isSome]
    obtain ⟨u, hu, he⟩ := hdup
    exact ⟨u, hu, beq_iff_eq.mpr he⟩
  cases hfind : st.users.find? (fun u => u.email == email) with
  | none => rw [hfind] at hs; cases hs
  | some u =>
    constructor
    · unfold register
      simp only [hfind]
    · unfold registerS register
      simp only [hfind]

theorem register_duplicate_email_witness :
    register stReg "u9" "Bob" "ann@x.com" "pw9" = .error .duplicateEmail ∧
    registerS stReg "u9" "Bob" "ann@x.com" "pw9" = stReg :=
  register_duplicate_email stReg "u9" "Bob" "ann@x.com" "pw9" ⟨annU, by decide, rfl⟩

/-- C2: for an authenticated user with no progress record matching the
course, `completeLesson` fails with the JavaScript null-dereference
(`TypeError` on `progress.completedLessons`), modelled `Err.nullDeref` —
not with a checked `NoSuchProgress` error, which does not exist in the
source. -/
theorem completeLesson_notEnrolled_nullDeref (st : St) (req : Ctx)
    (cid lesson : String) (hauth : req.isAuth = true) {u : User}
    (hu : findUser st req.userId = some u)
    (hnone : u.progress.find? (fun p => p.course == cid) = none) :
    completeLesson st req cid lesson = .error .nullDeref := by
  unfold completeLesson
  simp only [hauth, Bool.not_true, Bool.false_eq_true, if_false, hu, hnone]

theorem completeLesson_notEnrolled_nullDeref_witness :
    completeLesson stReg reqA "c1" "lesson1" = .error .nullDeref :=
  completeLesson_notEnrolled_nullDeref stReg reqA "c1" "lesson1" rfl
    (u := annU) (by decide) (by decide)

/-- C9: an authenticated `enroll` whose course id matches no stored course
(and which the user is not already spuriously enrolled in — always the case
in reachable states, where enrolled ids only ever point at stored,
never-deleted courses) crashes with a null-dereference
(`course.enrolledStudents.push` on `null`), not with a checked error. -/
theorem enroll_missing_course_nullDeref (st : St) (req : Ctx) (cid : String)
    (hauth : req.isAuth = true)
    (hc : findCourse st cid = none)
    (hclean : ∀ u ∈ st.users, u.id = req.userId → cid ∉ u.enrolledCourses) :
    enroll st req cid = .error .nullDeref := by
  unfold enroll
  simp only [hauth, Bool.not_true, Bool.false_eq_true, if_false]
  cases hu : findUser st req.userId with
  | none => rfl
  | some u =>
    have hnotin : cid ∉ u.enrolledCourses :=
      hclean u (findUser_mem hu) (findUser_id hu)
    simp [hc, hnotin]

theorem enroll_missing_course_nullDeref_witness :
    enroll stReg reqA "c9" = .error .nullDeref :=
  enroll_missing_course_nullDeref stReg reqA "c9" rfl (by decide) (by decide)

end ELearn

namespace ELearn

theorem findUser_saveUser (st : St) {uid : String} {u : User}
    (hu : findUser st uid = some u) (u' : User) (hid : u'.id = u.id) :
    findUser (saveUser st u') uid = some u' := by
  have hfind : st.users.find? (fun v => v.id == u'.id) = some u := by
    simp only [hid, findUser_id hu]
    exact hu
  have hsd := find?_saveDoc User.id hfind uid
  show (saveDoc User.id st.users u').find? (fun v => v.id == uid) = some u'
  rw [hsd, if_pos (hid.trans (findUser_id hu)).symm]

theorem findCourse_saveCourse (st : St) {cid : String} {c : Course}
    (hc : findCourse st cid = some c) (c' : Course) (hid : c'.id = c.id) :
    findCourse (saveCourse st c') cid = some c' := by
  have hfind : st.courses.find? (fun v => v.id == c'.id) = some c := by
    simp only [hid, findCourse_id hc]
    exact hc
  have hsd := find?_saveDoc Course.id hfind cid
  show (saveDoc Course.id st.courses c').find? (fun v => v.id == cid) = some c'
  rw [hsd, if_pos (hid.trans (findCourse_id hc)).symm]

/-- C10: `completeLesson` validates the lesson argument against nothing: for
any enrolled (user, course) pair and *any* string `lesson` — no hypothesis
relates `lesson` to the course's `lessons` list, and the course need not
even exist in the catalog — the call succeeds, the returned progress record
contains `lesson`, and the stored progress record for that course now
carries exactly the returned lesson list. -/
theorem completeLesson_no_lesson_validation (st : St) (req : Ctx)
    (cid lesson : String) (hauth : req.isAuth = true) {u : User}
    (hu : findUser st req.userId = some u) {p : Progress}
    (hp : u.progress.find? (fun q => q.course == cid) = some p) :
    completeLesson st req cid lesson =
      .ok (addLesson lesson p, completeLessonS st req cid lesson) ∧
    lesson ∈ (addLesson lesson p).completedLessons ∧
    lessonsOf (completeLessonS st req cid lesson) req.userId cid =
      some (addLesson lesson p).completedLessons := by
  have hcl : completeLesson st req cid lesson =
      .ok (addLesson lesson p,
        saveUser st { u with progress := updateProgress u.progress cid lesson }) := by
    unfold completeLesson
    simp only [hauth, Bool.not_true, Bool.false_eq_true, if_false, hu, hp]
  have hS : completeLessonS st req cid lesson =
      saveUser st { u with progress := updateProgress u.progress cid lesson } := by
    unfold completeLessonS
    rw [hcl]
  refine ⟨by rw [hcl, hS], mem_addLesson lesson p, ?_⟩
  rw [hS]
  have h1 : findUser
      (saveUser st { u with progress := updateProgress u.progress cid lesson })
      req.userId =
      some { u with progress := updateProgress u.progress cid lesson } :=
    findUser_saveUser st hu _ rfl
  unfold lessonsOf
  rw [h1]
  simp only [Option.some_bind]
  show ((updateProgress u.progress cid lesson).find?
      (fun q => q.course == cid)).map (fun q => q.completedLessons) =
    some (addLesson lesson p).completedLessons
  rw [find?_updateProgress, if_pos rfl, hp]
  rfl

theorem completeLesson_no_lesson_validation_witness :
    completeLesson stEnr reqA "c1" "zzz" =
      .ok (addLesson "zzz" ⟨"c1", []⟩, completeLessonS stEnr reqA "c1" "zzz") ∧
    "zzz" ∈ (addLesson "zzz" (⟨"c1", []⟩ : Progress)).completedLessons ∧
    lessonsOf (completeLessonS stEnr reqA "c1" "zzz") "u1" "c1" =
      some (addLesson "zzz" (⟨"c1", []⟩ : Progress)).completedLessons :=
  completeLesson_no_lesson_validation stEnr reqA "c1" "zzz" rfl
    (u := annE) (by decide) (p := ⟨"c1", []⟩) (by decide)

instance decLessonsNodup (st : St) : Decidable (LessonsNodup st) :=
  inferInstanceAs (Decidable (∀ u ∈ st.users, ∀ p ∈ u.progress, p.completedLessons.Nodup))

/-- C3: over any state whose stored lesson lists are duplicate-free (as all
reachable states are — enrollment creates the empty list) and any sequence
of `completeLesson` calls, every stored completed-lessons list still counts
each lesson at most once, and every pre-existing list is an initial segment
of its final version (lessons are only appended, so the order of first
insertion of distinct lessons is preserved and repeats change nothing). -/
theorem completeLesson_lessons_once_order (st : St)
    (calls : List (Ctx × String × String)) (h : LessonsNodup st) :
    (∀ uid cid ls x, lessonsOf (applyCalls st calls) uid cid = some ls →
      ls.count x ≤ 1) ∧
    (∀ uid cid, GrowsTo (lessonsOf st uid cid)
      (lessonsOf (applyCalls st calls) uid cid)) := by
  constructor
  · intro uid cid ls x hls
    obtain ⟨u, hu, p, hp, hpl⟩ := lessonsOf_mem hls
    have hnd : ls.Nodup := hpl ▸ applyCalls_nodup calls st h u hu p hp
    exact List.nodup_iff_count_le_one.mp hnd x
  · intro uid cid
    exact applyCalls_growsTo calls st uid cid

/-- The witness call sequence: the same lesson completed twice. -/
def callsW : List (Ctx × String × String) :=
  [(reqA, "c1", "lesson1"), (reqA, "c1", "lesson1")]

theorem completeLesson_lessons_once_order_witness :
    LessonsNodup stEnr ∧
    lessonsOf (applyCalls stEnr callsW) "u1" "c1" = some ["lesson1"] ∧
    (["lesson1"] : List String).count "lesson1" ≤ 1 :=
  ⟨by decide, by decide,
    (completeLesson_lessons_once_order stEnr callsW (by decide)).1
      "u1" "c1" ["lesson1"] "lesson1" (by decide)⟩

theorem registerS_cases (st : St) (fid nm email pw : String) :
    registerS st fid nm email pw = st ∨
    registerS st fid nm email pw =
      { st with users := st.users ++
          [{ id := fid, name := nm, email := email, password := pw
             enrolledCourses := [], progress := [] }] } := by
  unfold registerS register
  cases hfind : st.users.find? (fun u => u.email == email) with
  | some u => exact Or.inl rfl
  | none => exact Or.inr rfl

/-- C7: every API operation is monotone on the store: no user document and
no course document is ever deleted, no progress record is ever removed, and
no completed-lessons list ever loses a lesson (each is an initial segment of
its successor). -/
theorem step_monotone (st : St) (op : Op) : Mono st (stepState st op) := by
  cases op with
  | coursesQ _ => exact mono_refl st
  | myCoursesQ _ => exact mono_refl st
  | myProgressQ _ _ => exact mono_refl st
  | loginM _ _ _ _ => exact mono_refl st
  | registerM fid nm email pw =>
    show Mono st (registerS st fid nm email pw)
    rcases registerS_cases st fid nm email pw with heq | heq
    · rw [heq]; exact mono_refl st
    · rw [heq]
      constructor
      · intro v hv
        exact ⟨v, List.mem_append_left _ hv, rfl, pGrows_refl v⟩
      · intro c hc
        exact ⟨c, hc, rfl⟩
  | enrollM r cid =>
    show Mono st (enrollS st r cid)
    rcases enrollS_cases st r cid with heq | ⟨u, c, hu, hc, hnot, heq⟩
    · rw [heq]; exact mono_refl st
    · rw [heq]
      refine ⟨?_, ?_⟩
      · intro v hv
        refine saveDoc_user_mono (u := u) ?_ ?_ v hv
        · show st.users.find? (fun v => v.id == u.id) = some u
          simp only [findUser_id hu]
          exact hu
        · intro p hp
          exact ⟨p, List.mem_append_left _ hp, rfl, grows_refl _⟩
      · intro cc hcc
        exact saveDoc_ids Course.id st.courses _ cc hcc
  | completeLessonM r cid lesson =>
    show Mono st (completeLessonS st r cid lesson)
    rcases completeLessonS_cases st r cid lesson with heq | ⟨u, hu, heq⟩
    · rw [heq]; exact mono_refl st
    · rw [heq]
      refine ⟨?_, ?_⟩
      · intro v hv
        refine saveDoc_user_mono (u := u) ?_ ?_ v hv
        · show st.users.find? (fun v => v.id == u.id) = some u
          simp only [findUser_id hu]
          exact hu
        · intro p hp
          exact updateProgress_grows u.progress cid lesson p hp
      · intro cc hcc
        exact ⟨cc, hcc, rfl⟩

end ELearn

namespace ELearn

/-- C1: after a first successful `enroll` (user and course found, not yet
enrolled, no pre-existing progress/membership entries for the pair), a
second `enroll` with the same (user, course) is a no-op on the store that
still returns the course, and after both calls the user holds exactly one
progress record for the course, exactly one entry for the course id in the
enrolled list, and the course holds exactly one entry for the user id in its
enrolled-student list. -/
theorem enroll_twice_idempotent (st : St) (req : Ctx) (cid : String)
    (hauth : req.isAuth = true)
    {u : User} (hu : findUser st req.userId = some u)
    {c : Course} (hc : findCourse st cid = some c)
    (hnot : cid ∉ u.enrolledCourses)
    (hprog : u.progress.countP (fun p => p.course == cid) = 0)
    (hstud : c.enrolledStudents.count req.userId = 0) :
    enroll (enrollS st req cid) req cid =
      .ok (findCourse (enrollS st req cid) cid, enrollS st req cid) ∧
    (findCourse (enrollS st req cid) cid).isSome = true ∧
    (findUser (enrollS st req cid) req.userId).map
      (fun v => v.progress.countP (fun p => p.course == cid)) = some 1 ∧
    (findUser (enrollS st req cid) req.userId).map
      (fun v => v.enrolledCourses.count cid) = some 1 ∧
    (findCourse (enrollS st req cid) cid).map
      (fun v => v.enrolledStudents.count req.userId) = some 1 := by
  have h1 : enroll st req cid =
      .ok (some { c with enrolledStudents := c.enrolledStudents ++ [u.id] },
        saveCourse (saveUser st
          { u with enrolledCourses := u.enrolledCourses ++ [cid]
                   progress := u.progress ++ [⟨cid, []⟩] })
          { c with enrolledStudents := c.enrolledStudents ++ [u.id] }) := by
    unfold enroll
    simp only [hauth, Bool.not_true, Bool.false_eq_true, if_false, hu, hc, if_neg hnot]
  have hS : enrollS st req cid =
      saveCourse (saveUser st
        { u with enrolledCourses := u.enrolledCourses ++ [cid]
                 progress := u.progress ++ [⟨cid, []⟩] })
        { c with enrolledStudents := c.enrolledStudents ++ [u.id] } := by
    unfold enrollS
    rw [h1]
  have hu1 : findUser (enrollS st req cid) req.userId =
      some { u with enrolledCourses := u.enrolledCourses ++ [cid]
                    progress := u.progress ++ [⟨cid, []⟩] } := by
    rw [hS]
    exact findUser_saveUser st hu _ rfl
  have hc1 : findCourse (enrollS st req cid) cid =
      some { c with enrolledStudents := c.enrolledStudents ++ [u.id] } := by
    rw [hS]
    exact findCourse_saveCourse _ hc _ rfl
  have h2 : enroll (enrollS st req cid) req cid =
      .ok (some { c with enrolledStudents := c.enrolledStudents ++ [u.id] },
        enrollS st req cid) := by
    unfold enroll
    simp only [hauth, Bool.not_true, Bool.false_eq_true, if_false, hu1]
    have hmem : cid ∈ u.enrolledCourses ++ [cid] :=
      List.mem_append_right _ (List.mem_singleton.mpr rfl)
    rw [if_pos hmem, hc1]
  refine ⟨?_, ?_, ?_, ?_, ?_⟩
  · rw [hc1]
    exact h2
  · rw [hc1]
    rfl
  · rw [hu1]
    simp only [Option.map_some', Option.some.injEq]
    show (u.progress ++ [(⟨cid, []⟩ : Progress)]).countP (fun p => p.course == cid) = 1
    rw [List.countP_append, hprog]
    simp [List.countP_cons]
  · rw [hu1]
    simp only [Option.map_some', Option.some.injEq]
    show (u.enrolledCourses ++ [cid]).count cid = 1
    rw [List.count_append, List.count_eq_zero.mpr hnot]
    simp
  · rw [hc1]
    simp only [Option.map_some', Option.some.injEq]
    show (c.enrolledStudents ++ [u.id]).count req.userId = 1
    rw [List.count_append, hstud, findUser_id hu]
    simp

theorem enroll_twice_idempotent_witness :
    enroll (enrollS stReg reqA "c1") reqA "c1" =
      .ok (findCourse (enrollS stReg reqA "c1") "c1", enrollS stReg reqA "c1") ∧
    (findCourse (enrollS stReg reqA "c1") "c1").isSome = true ∧
    (findUser (enrollS stReg reqA "c1") "u1").map
      (fun v => v.progress.countP (fun p => p.course == "c1")) = some 1 ∧
    (findUser (enrollS stReg reqA "c1") "u1").map
      (fun v => v.enrolledCourses.count "c1") = some 1 ∧
    (findCourse (enrollS stReg reqA "c1") "c1").map
      (fun v => v.enrolledStudents.count "u1") = some 1 :=
  enroll_twice_idempotent stReg reqA "c1" rfl (u := annU) (by decide)
    (c := mathC) (by decide) (by decide) (by decide) (by decide)

end ELearn
